import Mathlib

/-!
Verification of the tuple structural-operations crate (`tuplestructops`).

The crate provides three compile-time structural operations on fixed-arity
heterogeneous tuples — `join` (concatenation), `split` (prefix/suffix
decomposition) and `idx` (positional projection) — generated by a macro
sweep for every arity from 0 to 16 (base configuration), in both an owned
and a by-reference form (`src/lib.rs`).

Shallow embedding used here:

* A heterogeneous tuple value of arity N is modelled as a list of length N
  of dependent pairs `⟨α, a⟩` (a component of any type together with its
  type), so component order and component values are preserved exactly and
  arity is the list length.
* Each trait-impl family generated by the macros is modelled by one uniform
  Lean function whose unfolding at a concrete arity is exactly the flat
  rearrangement the corresponding generated impl performs.  An operation
  whose impl does not exist for the given shape (e.g. indexing out of
  range, splitting past the arity) returns `none`.
* A Rust reference `&'a T` is modelled by its referent: the by-reference
  impls (whose generated bodies are the same rearrangements, producing
  tuples of references) are modelled by separate functions computing the
  referents of the references they return.  Everything in the model is
  immutable, matching the fact that the generated bodies only destructure
  and rebuild.
* The macro machinery itself (`impl_tupleops!` / `tuple_impl!` in
  `src/lib.rs`) is modelled by functions that produce the list of impl
  descriptors the macros emit, so totality/uniqueness of the generated
  impl set is a statement about concrete lists.
-/

/-- A tuple component: a value of an arbitrary type, paired with its type.
Rust tuple components are unconstrained (`impl<T0, T1, ...>` with no
bounds), so the component type ranges over all of `Type`. -/
abbrev Val : Type 1 := Sigma fun α : Type => α

/-- A heterogeneous tuple of arity N, modelled as the ordered list of its
N components. -/
abbrev Tuple : Type 1 := List Val

/-- The arity of a tuple: its number of components. -/
def Tuple.arity (t : Tuple) : Nat := t.length

/-- Owned `join` (src/lib.rs lines 85-95): the generated impl for a
left tuple of arity L and right tuple of arity R destructures both and
rebuilds `($($left,)* $($right,)*)` — all left components, in order,
followed by all right components, in order.  The uniform model recurses on
the left tuple; at each concrete arity it unfolds to exactly that flat
rearrangement. -/
def TupleJoin.join : Tuple → Tuple → Tuple
  | [], other => other
  | a :: as, other => a :: TupleJoin.join as other

/-- By-reference `join` (src/lib.rs lines 98-108): the generated body is
the same rearrangement, destructuring the two referenced tuples and
returning the tuple of component references `($(&'a left,)* $(&'a right,)*)`.
References are modelled by their referents. -/
def TupleJoin.joinRef : Tuple → Tuple → Tuple
  | [], other => other
  | a :: as, other => a :: TupleJoin.joinRef as other

/-- Owned `split` (src/lib.rs lines 111-118): the generated impl for a
partition (L, R) destructures an arity-(L+R) tuple and rebuilds
`(($($left,)*), ($($right,)*))` — the first L components as the prefix and
the remaining R as the suffix.  The model takes the prefix arity L (in
Rust it is fixed by the `LHS`/`RHS` type parameters of the impl) and
returns `none` when no impl with that partition exists, i.e. when L
exceeds the tuple's arity. -/
def TupleSplit.split : Nat → Tuple → Option (Tuple × Tuple)
  | 0, t => some ([], t)
  | _ + 1, [] => none
  | l + 1, v :: t => (TupleSplit.split l t).map fun p => (v :: p.1, p.2)

/-- By-reference `split` (src/lib.rs lines 121-128): same rearrangement on
the referenced tuple, producing two tuples of component references;
references are modelled by their referents. -/
def TupleSplit.splitRef : Nat → Tuple → Option (Tuple × Tuple)
  | 0, t => some ([], t)
  | _ + 1, [] => none
  | l + 1, v :: t => (TupleSplit.splitRef l t).map fun p => (v :: p.1, p.2)

/-- Owned `idx` (src/lib.rs lines 156-165): the generated impl
`TupleIdx<I>` for an arity-N tuple (I in 0..N) destructures the tuple and
returns component `T~I`.  The model returns `none` when no impl exists,
i.e. when I is not below the arity. -/
def TupleIdx.idx : Nat → Tuple → Option Val
  | _, [] => none
  | 0, v :: _ => some v
  | i + 1, _ :: t => TupleIdx.idx i t

/-- By-reference `idx` (src/lib.rs lines 168-177): the generated body is
the same projection on the referenced tuple, returning `&'a T~I`;
the reference is modelled by its referent. -/
def TupleIdx.idxRef : Nat → Tuple → Option Val
  | _, [] => none
  | 0, v :: _ => some v
  | i + 1, _ :: t => TupleIdx.idxRef i t

/-- The associated constant of every generated `TupleIdx<I>` impl
(src/lib.rs line 158 / line 170): `const INDEX: usize = I;`. -/
def TupleIdx.INDEX (i : Nat) : Nat := i

/-- Modelled from the spec: the free-function convenience wrapper for
indexing (`idx::<I>(tuple)`) is not present under src/ — only the
`TupleIdx::idx` method is.  Per the spec it takes the target position as a
compile-time parameter and the tuple as its sole runtime argument and
wraps the method form, so it delegates to `TupleIdx.idx`. -/
def idxFree (i : Nat) (t : Tuple) : Option Val := TupleIdx.idx i t

/-! ## The generator (`impl_tupleops!` and `tuple_impl!` macros) -/

/-- Borrow mode of a generated impl: each macro expansion emits both an
owned (by-value) and a borrowed (by-reference) form. -/
inductive Mode where
  | owned
  | borrowed
deriving DecidableEq, Repr

/-- Which of the two join/split traits a generated impl belongs to. -/
inductive OpKind where
  | join
  | split
deriving DecidableEq, Repr

/-- Descriptor of one generated join/split impl: the total arity N of the
joined tuple, the partition lengths L and R (with the intent L + R = N),
the trait, and the borrow mode. -/
structure JSImpl where
  arity : Nat
  left : Nat
  right : Nat
  kind : OpKind
  mode : Mode
deriving DecidableEq, Repr

/-- Descriptor of one generated `TupleIdx` impl: the tuple arity N, the
index I of the impl `TupleIdx<I>`, and the borrow mode. -/
structure IdxImpl where
  arity : Nat
  pos : Nat
  mode : Mode
deriving DecidableEq, Repr

/-- The `@recur` arm of `impl_tupleops!` (src/lib.rs lines 130-136): given
the identifiers already moved to the left of the `;` and those still on
the right, it emits one `@impl` invocation for the current (left; right)
partition and, if the right part is nonempty, moves its first identifier
to the left and recurses.  Identifiers are modelled by their positions. -/
def implTupleopsRecur : List Nat → List Nat → List (List Nat × List Nat)
  | left, [] => [(left, [])]
  | left, first :: rest =>
      (left, first :: rest) :: implTupleopsRecur (left ++ [first]) rest

/-- The entry arm of `impl_tupleops!` (src/lib.rs lines 137-139): starts
the recursion with every identifier on the right. -/
def impl_tupleops (types : List Nat) : List (List Nat × List Nat) :=
  implTupleopsRecur [] types

/-- The four impls the `@impl` arm of `impl_tupleops!` emits for one
partition (src/lib.rs lines 83-129): join by value, join by reference,
split by value, split by reference. -/
def implsOfPartition (N : Nat) (p : List Nat × List Nat) : List JSImpl :=
  [⟨N, p.1.length, p.2.length, OpKind.join, Mode.owned⟩,
   ⟨N, p.1.length, p.2.length, OpKind.join, Mode.borrowed⟩,
   ⟨N, p.1.length, p.2.length, OpKind.split, Mode.owned⟩,
   ⟨N, p.1.length, p.2.length, OpKind.split, Mode.borrowed⟩]

/-- `seq!(N in low..=high { ... })`: the inclusive numeric sweep used by
`tuple_impl!` (src/lib.rs line 146). -/
def seqRange (low high : Nat) : List Nat :=
  (List.range (high + 1 - low)).map (low + ·)

/-- The generic type parameters `T0 ... T~(N-1)` produced by
`seq!(J in 0..N { ... })`, modelled by their positions. -/
def typeParams (N : Nat) : List Nat := List.range N

/-- All join/split impls generated by `tuple_impl!(low, high)`
(src/lib.rs lines 142-185): for each arity N from low to high it invokes
`impl_tupleops!(T0 ... T~(N-1))`, which emits four impls per partition.
The base configuration is `tuple_impl!(0, 16)` (src/lib.rs line 185). -/
def joinSplitImpls (low high : Nat) : List JSImpl :=
  (seqRange low high).flatMap fun N =>
    (impl_tupleops (typeParams N)).flatMap (implsOfPartition N)

/-- All `TupleIdx` impls generated by `tuple_impl!(low, high)`
(src/lib.rs lines 154-178): for each arity N from low to high, for each
I in 0..N, one impl by value and one by reference. -/
def tupleIdxImpls (low high : Nat) : List IdxImpl :=
  (seqRange low high).flatMap fun N =>
    (List.range N).flatMap fun I =>
      [⟨N, I, Mode.owned⟩, ⟨N, I, Mode.borrowed⟩]

/-! ## Basic lemmas about the operations -/

/-- `join` concatenates the component lists. -/
theorem TupleJoin.join_eq_append (a b : Tuple) : TupleJoin.join a b = a ++ b := by
  induction a with
  | nil => rfl
  | cons v as ih => simp [TupleJoin.join, ih]

/-- The by-reference `join` produces, referent-wise, the same concatenation. -/
theorem TupleJoin.joinRef_eq_append (a b : Tuple) : TupleJoin.joinRef a b = a ++ b := by
  induction a with
  | nil => rfl
  | cons v as ih => simp [TupleJoin.joinRef, ih]

/-- `split l t` succeeds exactly when the requested prefix arity is at most
the tuple's arity. -/
theorem TupleSplit.split_isSome_iff (l : Nat) (t : Tuple) :
    (TupleSplit.split l t).isSome ↔ l ≤ t.arity := by
  induction l generalizing t with
  | zero => simp [TupleSplit.split, Tuple.arity]
  | succ l ih =>
    cases t with
    | nil => simp [TupleSplit.split, Tuple.arity]
    | cons v t =>
      simp [TupleSplit.split, Tuple.arity, Option.isSome_map, ih t, Tuple.arity,
        Nat.succ_le_succ_iff]

/-- When the partition is in range, `split` returns the first `l`
components and the remaining ones. -/
theorem TupleSplit.split_eq_take_drop (l : Nat) (t : Tuple) (h : l ≤ t.arity) :
    TupleSplit.split l t = some (t.take l, t.drop l) := by
  induction l generalizing t with
  | zero => simp [TupleSplit.split]
  | succ l ih =>
    cases t with
    | nil => simp [Tuple.arity] at h
    | cons v t =>
      simp only [Tuple.arity, List.length_cons] at h
      have ht : l ≤ Tuple.arity t := Nat.le_of_succ_le_succ h
      simp [TupleSplit.split, ih t ht]

/-- The by-reference `split` computes, referent-wise, the same partition as
the owned one. -/
theorem TupleSplit.splitRef_eq_split (l : Nat) (t : Tuple) :
    TupleSplit.splitRef l t = TupleSplit.split l t := by
  induction l generalizing t with
  | zero => rfl
  | succ l ih =>
    cases t with
    | nil => rfl
    | cons v t => simp [TupleSplit.split, TupleSplit.splitRef, ih t]

/-- `idx` is positional lookup in the component list. -/
theorem TupleIdx.idx_eq_getElem? (i : Nat) (t : Tuple) :
    TupleIdx.idx i t = t[i]? := by
  induction i generalizing t with
  | zero => cases t <;> simp [TupleIdx.idx]
  | succ i ih =>
    cases t with
    | nil => simp [TupleIdx.idx]
    | cons v t => simpa [TupleIdx.idx] using ih t

/-- The by-reference `idx` returns a reference whose referent is what the
owned `idx` returns. -/
theorem TupleIdx.idxRef_eq_idx (i : Nat) (t : Tuple) :
    TupleIdx.idxRef i t = TupleIdx.idx i t := by
  induction i generalizing t with
  | zero => cases t <;> rfl
  | succ i ih =>
    cases t with
    | nil => rfl
    | cons v t => simpa [TupleIdx.idx, TupleIdx.idxRef] using ih t

/-! ## Lemmas about the generator -/

/-- Closed form of the macro recursion: starting from (left; right), the
emitted partitions are exactly (left ++ first k of right; rest of right)
for k = 0, 1, ..., length of right. -/
theorem implTupleopsRecur_eq (left right : List Nat) :
    implTupleopsRecur left right =
      (List.range (right.length + 1)).map fun k =>
        (left ++ right.take k, right.drop k) := by
  induction right generalizing left with
  | nil => simp [implTupleopsRecur]
  | cons f rest ih =>
    simp only [implTupleopsRecur, ih, List.length_cons]
    conv_rhs => rw [List.range_succ_eq_map]
    simp [List.map_map, Function.comp_def, List.append_assoc]

/-- The partitions emitted for the N type parameters are exactly the
(prefix, suffix) splits of the parameter list at every point 0..N. -/
theorem impl_tupleops_typeParams (N : Nat) :
    impl_tupleops (typeParams N) =
      (List.range (N + 1)).map fun k =>
        ((List.range N).take k, (List.range N).drop k) := by
  simp [impl_tupleops, typeParams, implTupleopsRecur_eq]

/-- The base sweep `seq!(N in 0..=high)` enumerates 0, 1, ..., high. -/
theorem seqRange_zero (high : Nat) : seqRange 0 high = List.range (high + 1) := by
  simp [seqRange]

/-- A generated join/split impl for arity N, partition point k, exists in
the base configuration exactly for N at most 16 and partitions with
L + R = N — both traits, both borrow modes. -/
theorem mem_joinSplitImpls_iff (N L R : Nat) (k : OpKind) (m : Mode) :
    JSImpl.mk N L R k m ∈ joinSplitImpls 0 16 ↔ N ≤ 16 ∧ L + R = N := by
  simp only [joinSplitImpls, seqRange_zero, impl_tupleops_typeParams, implsOfPartition,
    List.flatMap_map, List.mem_flatMap, List.mem_range, List.mem_cons,
    List.not_mem_nil, or_false, JSImpl.mk.injEq, List.length_take, List.length_drop,
    List.length_range]
  constructor
  · rintro ⟨N', hN', j, hj, hcase⟩
    rcases hcase with h | h | h | h <;> · obtain ⟨h1, h2, h3, -, -⟩ := h; omega
  · rintro ⟨hN, hLR⟩
    refine ⟨N, by omega, L, by omega, ?_⟩
    cases k <;> cases m <;> simp <;> omega

/-- A generated `TupleIdx` impl for arity N at index I exists in the base
configuration exactly for N at most 16 and I below N — both borrow
modes. -/
theorem mem_tupleIdxImpls_iff (N I : Nat) (m : Mode) :
    IdxImpl.mk N I m ∈ tupleIdxImpls 0 16 ↔ N ≤ 16 ∧ I < N := by
  simp only [tupleIdxImpls, seqRange_zero, List.mem_flatMap, List.mem_range,
    List.mem_cons, List.not_mem_nil, or_false, IdxImpl.mk.injEq]
  constructor
  · rintro ⟨N', hN', I', hI', hcase⟩
    rcases hcase with ⟨h1, h2, -⟩ | ⟨h1, h2, -⟩ <;> omega
  · rintro ⟨hN, hI⟩
    refine ⟨N, by omega, I, by omega, ?_⟩
    cases m <;> simp

/-- Every element of `implsOfPartition N p` records arity N and the
partition lengths of p. -/
theorem mem_implsOfPartition (N : Nat) (p : List Nat × List Nat) (e : JSImpl)
    (h : e ∈ implsOfPartition N p) :
    e.arity = N ∧ e.left = p.1.length ∧ e.right = p.2.length := by
  rcases p with ⟨l, r⟩
  simp only [implsOfPartition, List.mem_cons, List.not_mem_nil, or_false] at h
  rcases h with rfl | rfl | rfl | rfl <;> exact ⟨rfl, rfl, rfl⟩

/-- The four impls emitted for one partition are pairwise distinct (they
differ in trait or borrow mode). -/
theorem nodup_implsOfPartition (N : Nat) (p : List Nat × List Nat) :
    (implsOfPartition N p).Nodup := by
  simp [implsOfPartition, JSImpl.mk.injEq]

/-- No join/split impl is generated twice in the base configuration. -/
theorem nodup_joinSplitImpls : (joinSplitImpls 0 16).Nodup := by
  rw [joinSplitImpls, seqRange_zero]
  refine List.nodup_flatMap.mpr ⟨fun N _ => ?_, ?_⟩
  · rw [impl_tupleops_typeParams, List.flatMap_map]
    refine List.nodup_flatMap.mpr ⟨fun j _ => nodup_implsOfPartition N _, ?_⟩
    refine ((List.nodup_range _).imp_of_mem ?_)
    intro j j' hj hj' hne e he he'
    simp only [List.mem_range] at hj hj'
    obtain ⟨-, hL, -⟩ := mem_implsOfPartition N _ e he
    obtain ⟨-, hL', -⟩ := mem_implsOfPartition N _ e he'
    simp only [List.length_take, List.length_range] at hL hL'
    omega
  · refine ((List.nodup_range _).imp_of_mem ?_)
    intro N N' hN hN' hne e he he'
    simp only [impl_tupleops_typeParams, List.flatMap_map, List.mem_flatMap,
      List.mem_range] at he he'
    obtain ⟨j, -, hj⟩ := he
    obtain ⟨j', -, hj'⟩ := he'
    obtain ⟨hA, -, -⟩ := mem_implsOfPartition N _ e hj
    obtain ⟨hA', -, -⟩ := mem_implsOfPartition N' _ e hj'
    omega

/-- No `TupleIdx` impl is generated twice in the base configuration. -/
theorem nodup_tupleIdxImpls : (tupleIdxImpls 0 16).Nodup := by
  rw [tupleIdxImpls, seqRange_zero]
  refine List.nodup_flatMap.mpr ⟨fun N _ => ?_, ?_⟩
  · refine List.nodup_flatMap.mpr ⟨fun I _ => by simp [IdxImpl.mk.injEq], ?_⟩
    refine ((List.nodup_range _).imp_of_mem ?_)
    intro I I' hI hI' hne e he he'
    simp only [List.mem_cons, List.not_mem_nil, or_false] at he he'
    rcases he with rfl | rfl <;> rcases he' with h | h <;>
      · obtain ⟨-, h2, -⟩ := IdxImpl.mk.injEq .. ▸ congrArg id h; omega
  · refine ((List.nodup_range _).imp_of_mem ?_)
    intro N N' hN hN' hne e he he'
    simp only [List.mem_flatMap, List.mem_range, List.mem_cons, List.not_mem_nil,
      or_false] at he he'
    obtain ⟨I, -, hI⟩ := he
    obtain ⟨I', -, hI'⟩ := he'
    rcases hI with rfl | rfl <;> rcases hI' with h | h <;>
      · obtain ⟨h1, -, -⟩ := IdxImpl.mk.injEq .. ▸ congrArg id h; omega

/-! ## Example tuples, used to instantiate the theorems at concrete inputs -/

/-- The tuple `(1, 'a')` from the crate's tests. -/
def exA : Tuple := [⟨Nat, 1⟩, ⟨Char, 'a'⟩]

/-- The tuple `(2, 'b')` from the crate's tests. -/
def exB : Tuple := [⟨Nat, 2⟩, ⟨Char, 'b'⟩]

/-- The tuple `(1, 'a', 2, 'b')` from the crate's tests. -/
def exT : Tuple := [⟨Nat, 1⟩, ⟨Char, 'a'⟩, ⟨Nat, 2⟩, ⟨Char, 'b'⟩]

/-- The tuple `(1, 'a', 2.3)` from the spec's indexing scenario (the third
component's literal is kept as text, its type being irrelevant here). -/
def ex3 : Tuple := [⟨Nat, 1⟩, ⟨Char, 'a'⟩, ⟨String, "2.3"⟩]

/-! ## The claims -/

/-- C1: for every tuple A of arity a and tuple B of arity b with a + b at
most the configured maximum 16, the owned `A.join(B)` has arity a + b, its
I-th component equals A's I-th component for I < a, and equals B's
(I - a)-th component for a ≤ I < a + b. -/
theorem c1_join_order_preservation (A B : Tuple)
    (h : A.arity + B.arity ≤ 16) :
    (TupleJoin.join A B).arity = A.arity + B.arity ∧
    (∀ I, I < A.arity →
      TupleIdx.idx I (TupleJoin.join A B) = TupleIdx.idx I A) ∧
    (∀ I, A.arity ≤ I → I < A.arity + B.arity →
      TupleIdx.idx I (TupleJoin.join A B) = TupleIdx.idx (I - A.arity) B) := by
  refine ⟨?_, ?_, ?_⟩
  · simp [TupleJoin.join_eq_append, Tuple.arity]
  · intro I hI
    have hI' : I < A.length := hI
    rw [TupleIdx.idx_eq_getElem?, TupleIdx.idx_eq_getElem?,
      TupleJoin.join_eq_append, List.getElem?_append_left hI']
  · intro I hI hI2
    have hI' : A.length ≤ I := hI
    rw [TupleIdx.idx_eq_getElem?, TupleIdx.idx_eq_getElem?,
      TupleJoin.join_eq_append, List.getElem?_append_right hI']
    rfl

/-- Witness for C1: `(1, 'a').join((2, 'b')) = (1, 'a', 2, 'b')`,
checked at arity and at components 1 (from the left operand) and
3 (component 1 of the right operand). -/
theorem c1_join_order_preservation_witness :
    Tuple.arity exA + Tuple.arity exB ≤ 16 ∧
    (TupleJoin.join exA exB).arity = Tuple.arity exA + Tuple.arity exB ∧
    TupleIdx.idx 1 (TupleJoin.join exA exB) = TupleIdx.idx 1 exA ∧
    TupleIdx.idx 3 (TupleJoin.join exA exB) = TupleIdx.idx 1 exB :=
  ⟨by decide, (c1_join_order_preservation exA exB (by decide)).1,
   (c1_join_order_preservation exA exB (by decide)).2.1 1 (by decide),
   (c1_join_order_preservation exA exB (by decide)).2.2 3 (by decide) (by decide)⟩

/-- C2: for every tuple T of arity N and split point L ≤ N, the owned
split at L succeeds, its prefix has arity L, its suffix arity N - L, and
joining prefix with suffix reproduces T; splitting an arity-0 tuple yields
two arity-0 tuples, and splitting with L = 0 (resp. R = 0) yields an empty
prefix (resp. suffix) and the other half equal to the input. -/
theorem c2_split_join_roundtrip (T : Tuple) (L : Nat) (h : L ≤ T.arity) :
    ∃ pre suf, TupleSplit.split L T = some (pre, suf) ∧
      Tuple.arity pre = L ∧ Tuple.arity suf = T.arity - L ∧
      TupleJoin.join pre suf = T ∧
      (T.arity = 0 → pre = [] ∧ suf = []) ∧
      (L = 0 → pre = [] ∧ suf = T) ∧
      (L = T.arity → pre = T ∧ suf = []) := by
  have h' : L ≤ T.length := h
  refine ⟨T.take L, T.drop L, TupleSplit.split_eq_take_drop L T h, ?_, ?_, ?_, ?_, ?_, ?_⟩
  · simp [Tuple.arity, List.length_take]
    omega
  · simp [Tuple.arity, List.length_drop]
  · simp [TupleJoin.join_eq_append, List.take_append_drop]
  · intro h0
    have hnil : T = [] := List.length_eq_zero.mp h0
    subst hnil
    simp
  · intro h0
    subst h0
    simp
  · intro hL
    subst hL
    constructor
    · exact List.take_length T
    · exact List.drop_length T

/-- Witness for C2: splitting `(1, 'a', 2, 'b')` at L = 2. -/
theorem c2_split_join_roundtrip_witness :
    2 ≤ Tuple.arity exT ∧
    (∃ pre suf, TupleSplit.split 2 exT = some (pre, suf) ∧
      Tuple.arity pre = 2 ∧ Tuple.arity suf = Tuple.arity exT - 2 ∧
      TupleJoin.join pre suf = exT ∧
      (Tuple.arity exT = 0 → pre = [] ∧ suf = []) ∧
      (2 = 0 → pre = [] ∧ suf = exT) ∧
      (2 = Tuple.arity exT → pre = exT ∧ suf = [])) :=
  ⟨by decide, c2_split_join_roundtrip exT 2 (by decide)⟩

/-- C3: for every tuple T of arity N and index I < N, `idx` returns the
I-th component used to construct T, and the exposed compile-time constant
INDEX of that impl equals I. -/
theorem c3_idx_correct (T : Tuple) (I : Nat) (h : I < T.arity) :
    TupleIdx.idx I T = some (T.get ⟨I, h⟩) ∧ TupleIdx.INDEX I = I := by
  refine ⟨?_, rfl⟩
  have h' : I < T.length := h
  rw [TupleIdx.idx_eq_getElem?]
  simp [List.getElem?_eq_getElem h']

/-- Witness for C3: component 1 of `(1, 'a', 2, 'b')`. -/
theorem c3_idx_correct_witness :
    1 < Tuple.arity exT ∧
    (TupleIdx.idx 1 exT = some (exT.get ⟨1, by decide⟩) ∧ TupleIdx.INDEX 1 = 1) :=
  ⟨by decide, c3_idx_correct exT 1 (by decide)⟩

/-- C5: the empty tuple is a left and a right identity of the owned
`join`: `T.join(())` and `().join(T)` both equal T. -/
theorem c5_join_unit_identity (T : Tuple) :
    TupleJoin.join T [] = T ∧ TupleJoin.join [] T = T := by
  constructor
  · simp [TupleJoin.join_eq_append]
  · rfl

/-- C4: totality and uniqueness of the generated impl set in the base
configuration (`tuple_impl!(0, 16)`): no generated impl is emitted twice,
a join/split impl for arity N and partition (L, R) exists exactly when
N ≤ 16 and L + R = N, and a `TupleIdx` impl for arity N at index I exists
exactly when N ≤ 16 and I < N — in each case for both the owned and the
borrowed form. -/
theorem c4_generator_totality_uniqueness :
    (joinSplitImpls 0 16).Nodup ∧ (tupleIdxImpls 0 16).Nodup ∧
    (∀ N L R k m, JSImpl.mk N L R k m ∈ joinSplitImpls 0 16 ↔
      N ≤ 16 ∧ L + R = N) ∧
    (∀ N I m, IdxImpl.mk N I m ∈ tupleIdxImpls 0 16 ↔ N ≤ 16 ∧ I < N) :=
  ⟨nodup_joinSplitImpls, nodup_tupleIdxImpls,
   mem_joinSplitImpls_iff, mem_tupleIdxImpls_iff⟩

/-- C6: for every arity N up to the configured maximum 16 and every index
I ≥ N, no `TupleIdx` impl for (N, I) is generated in either borrow mode,
and the indexing operation has no result on an arity-N tuple at I. -/
theorem c6_idx_out_of_range (T : Tuple) (N I : Nat) (hN : N ≤ 16)
    (hT : T.arity = N) (hI : N ≤ I) :
    TupleIdx.idx I T = none ∧
    (∀ m, IdxImpl.mk N I m ∉ tupleIdxImpls 0 16) := by
  constructor
  · rw [TupleIdx.idx_eq_getElem?]
    apply List.getElem?_eq_none
    simp only [Tuple.arity] at hT
    omega
  · intro m
    rw [mem_tupleIdxImpls_iff]
    omega

/-- Witness for C6: index 7 on the arity-4 tuple `(1, 'a', 2, 'b')`. -/
theorem c6_idx_out_of_range_witness :
    4 ≤ 16 ∧ Tuple.arity exT = 4 ∧ 4 ≤ 7 ∧
    (TupleIdx.idx 7 exT = none ∧
     (∀ m, IdxImpl.mk 4 7 m ∉ tupleIdxImpls 0 16)) :=
  ⟨by decide, by decide, by decide,
   c6_idx_out_of_range exT 4 7 (by decide) (by decide) (by decide)⟩

/-- C7: the borrowed operations return only references to the inputs'
components, in order: the referents of a borrowed join are exactly the
left components followed by the right ones, the referents of a borrowed
split reassemble to exactly the input, and a borrowed index refers to the
selected component.  In this embedding a borrow is modelled by its
referent and every value is immutable, so the operations neither move,
clone nor mutate any component and the input tuples remain intact. -/
theorem c7_borrowed_non_mutation (A B T : Tuple) (L I : Nat)
    (hL : L ≤ T.arity) (hI : I < T.arity) :
    TupleJoin.joinRef A B = A ++ B ∧
    (∃ pre suf, TupleSplit.splitRef L T = some (pre, suf) ∧ pre ++ suf = T) ∧
    TupleIdx.idxRef I T = some (T.get ⟨I, hI⟩) := by
  have hI' : I < T.length := hI
  refine ⟨TupleJoin.joinRef_eq_append A B, ⟨T.take L, T.drop L, ?_, ?_⟩, ?_⟩
  · rw [TupleSplit.splitRef_eq_split, TupleSplit.split_eq_take_drop L T hL]
  · exact List.take_append_drop L T
  · rw [TupleIdx.idxRef_eq_idx, TupleIdx.idx_eq_getElem?]
    simp [List.getElem?_eq_getElem hI']

/-- Witness for C7: borrowed join of `(1, 'a')` and `(2, 'b')`, borrowed
split of `(1, 'a', 2, 'b')` at L = 2, borrowed index 1 of the same. -/
theorem c7_borrowed_non_mutation_witness :
    2 ≤ Tuple.arity exT ∧ 1 < Tuple.arity exT ∧
    (TupleJoin.joinRef exA exB = exA ++ exB ∧
     (∃ pre suf, TupleSplit.splitRef 2 exT = some (pre, suf) ∧ pre ++ suf = exT) ∧
     TupleIdx.idxRef 1 exT = some (exT.get ⟨1, by decide⟩)) :=
  ⟨by decide, by decide,
   c7_borrowed_non_mutation exA exB exT 2 1 (by decide) (by decide)⟩

/-- C8: the free-function convenience wrapper for indexing takes the
position as a compile-time parameter and the tuple as its sole runtime
argument, and agrees with the method form at every in-range position.
(The wrapper is absent from the given sources and is modelled from the
spec as delegating to the method; see `idxFree`.) -/
theorem c8_idx_free_wrapper (T : Tuple) (I : Nat) (h : I < T.arity) :
    idxFree I T = TupleIdx.idx I T := rfl

/-- Witness for C8: the spec's scenario `idx::<1>((1, 'a', 2.3)) = 'a'` —
the wrapper agrees with the method form, and both select the component
`'a'`. -/
theorem c8_idx_free_wrapper_witness :
    1 < Tuple.arity ex3 ∧ idxFree 1 ex3 = TupleIdx.idx 1 ex3 ∧
    idxFree 1 ex3 = some ⟨Char, 'a'⟩ :=
  ⟨by decide, c8_idx_free_wrapper ex3 1 (by decide), rfl⟩

/-- C9: splitting the owned join `A.join(B)` at partition point `arity A`
returns exactly the pair (A, B) — join followed by split at the same
partition is the identity. -/
theorem c9_join_then_split (A B : Tuple) (h : A.arity + B.arity ≤ 16) :
    TupleSplit.split A.arity (TupleJoin.join A B) = some (A, B) := by
  have h1 : Tuple.arity A ≤ Tuple.arity (TupleJoin.join A B) := by
    simp [TupleJoin.join_eq_append, Tuple.arity]
  rw [TupleSplit.split_eq_take_drop _ _ h1, TupleJoin.join_eq_append]
  simp only [Tuple.arity]
  rw [List.take_left, List.drop_left]

/-- Witness for C9: `(1, 'a').join((2, 'b'))` split back at 2. -/
theorem c9_join_then_split_witness :
    Tuple.arity exA + Tuple.arity exB ≤ 16 ∧
    TupleSplit.split (Tuple.arity exA) (TupleJoin.join exA exB) = some (exA, exB) :=
  ⟨by decide, c9_join_then_split exA exB (by decide)⟩

/-- C10: at every in-range position, the borrowed indexing operation
returns a reference whose referent is exactly the value the owned indexing
operation returns. -/
theorem c10_idx_ref_agrees_with_owned (T : Tuple) (I : Nat) (h : I < T.arity) :
    TupleIdx.idxRef I T = TupleIdx.idx I T :=
  TupleIdx.idxRef_eq_idx I T

/-- Witness for C10: position 1 of `(1, 'a', 2, 'b')`. -/
theorem c10_idx_ref_agrees_with_owned_witness :
    1 < Tuple.arity exT ∧ TupleIdx.idxRef 1 exT = TupleIdx.idx 1 exT :=
  ⟨by decide, c10_idx_ref_agrees_with_owned exT 1 (by decide)⟩
